import Mathlib

/-!
Verification of the ADSS secret sharing implementation (package adss).

The Go source is embedded shallowly: bytes are `Nat` (the source guarantees
values below 256 where it matters, and hypotheses record that), byte slices
are `List Nat`, fallible functions return `GoExcept`, and the two places
where the Go runtime would panic are modelled by explicit panic values.
The external cryptographic primitives (SHA-256, the AES-CTR keystream and
the HKDF byte stream) are collaborators of the core, not part of it; they
are abstracted into a `CryptoPrims` bundle that records the facts the core
relies on (output length and byte range of the digests and of the PRF
stream).  The finite-field polynomial engine is absent from the sources and
is modelled from the spec, see `PolyEngine`.
-/

namespace Adss

/-- Result type mirroring the Go convention of returning a value or an error. -/
inductive GoExcept (α : Type) where
  | ok (val : α)
  | err (msg : String)
deriving DecidableEq

/-- Access structure: the pair of 8-bit integers (t, n) from adss.go. -/
structure AccessStructure where
  t : Nat
  n : Nat
deriving DecidableEq, Inhabited

/-- Serialization of an access structure: the two bytes t then n
(method Bytes in adss.go). -/
def AccessStructure.bytes (a : AccessStructure) : List Nat :=
  [a.t, a.n]

/-- Stubbed check from adss.go that always accepts (the source contains only
a TODO and returns true). -/
def AccessStructure.isSupportedIDSet (_ : AccessStructure) (_ : List Nat) : Bool :=
  true

/-- A secret share (struct SecretShare in adss.go).  The anonymous Pub struct
with fields C, D, J is flattened into pubC, pubD, pubJ. -/
structure SecretShare where
  as : AccessStructure
  id : Nat
  pubC : List Nat
  pubD : List Nat
  pubJ : List Nat
  sec : List Nat
  tag : List Nat
deriving DecidableEq, Inhabited

/-- Byte serialization of a share, concatenating the fields in source order
(method Bytes in adss.go). -/
def SecretShare.bytes (s : SecretShare) : List Nat :=
  s.as.bytes ++ [s.id] ++ s.pubC ++ s.pubD ++ s.pubJ ++ s.sec ++ s.tag

/-- Equality of shares compares the byte serializations (method Equal). -/
def SecretShare.equal (s other : SecretShare) : Bool :=
  s.bytes == other.bytes

/-- A share of the base secret sharing layer (struct s1SecretShare). -/
structure S1SecretShare where
  i : Nat
  t : Nat
  n : Nat
  secret : List Nat
deriving DecidableEq, Inhabited

/-- Conversion of an outer share to a base layer share (method toS1). -/
def SecretShare.toS1 (s : SecretShare) : S1SecretShare :=
  { i := s.id, t := s.as.t, n := s.as.n, secret := s.sec }

/-- External cryptographic primitives consumed by the core: the SHA-256
digest, the AES-CTR keystream (as a function of key, IV and position) and
the HKDF-SHA256 byte stream (as a function of seed, info and position).
The bundled facts are the ones the core relies on: a digest is exactly 32
bytes, and digest and PRF outputs are bytes. -/
structure CryptoPrims where
  sha256 : List Nat → List Nat
  ks : List Nat → List Nat → Nat → Nat
  prf : List Nat → List Nat → Nat → Nat
  sha256_len : ∀ l, (sha256 l).length = 32
  sha256_lt : ∀ l, ∀ b ∈ sha256 l, b < 256
  prf_lt : ∀ seed info i, prf seed info i < 256

/-- Modelled from the spec: the finite-field polynomial engine
(makePolynomial, Polynomial.evaluate and interpolatePolynomial) is not part
of the available sources; only its callers s1Share and s1Recover are.  The
spec (section 4.1) describes arithmetic in GF(256), construction of a
polynomial from a constant term plus pseudorandom coefficients, Horner
evaluation at a point, and Lagrange interpolation recovering the value at
x = 0, i.e. the constant term, from at least degree + 1 points with
distinct x coordinates.  The engine is modelled by two functions, `evalAt`
applied to the coefficient list (constant term first) and a point, and
`interpolate` applied to the x sample list, the y sample list and the
target point, together with the defining exactness property of Lagrange
interpolation at zero stated on byte-valued inputs. -/
structure PolyEngine where
  evalAt : List Nat → Nat → Nat
  interpolate : List Nat → List Nat → Nat → Nat
  interp_exact : ∀ (coeffs xs : List Nat), coeffs ≠ [] →
    (∀ b ∈ coeffs, b < 256) → xs.Nodup → (∀ x ∈ xs, x < 256) →
    coeffs.length ≤ xs.length →
    interpolate xs (xs.map (evalAt coeffs)) 0 = coeffs.headD 0

/-- XORKeyStream of a counter-mode stream starting at position i. -/
def xorKSFrom (ks : Nat → Nat) (i : Nat) : List Nat → List Nat
  | [] => []
  | b :: rest => (b ^^^ ks i) :: xorKSFrom ks (i + 1) rest

/-- XORKeyStream of a counter-mode stream over a whole buffer. -/
def xorKS (ks : Nat → Nat) (p : List Nat) : List Nat :=
  xorKSFrom ks 0 p

/-- All-zero IV used for the first stream in xorKeyStreamTwoInputs. -/
def iv0 : List Nat := List.replicate 16 0

/-- All-one IV used for the second stream in xorKeyStreamTwoInputs. -/
def iv1 : List Nat := List.replicate 16 1

/-- Function xorKeyStreamTwoInputs from adss.go: derives one AES-CTR stream
per input, domain separated by the IV, and XORs each input with its stream.
aes.NewCipher fails unless the key is 16, 24 or 32 bytes long. -/
def xorKeyStreamTwoInputs (c : CryptoPrims) (k p1 p2 : List Nat) :
    GoExcept (List Nat × List Nat) :=
  if k.length = 16 ∨ k.length = 24 ∨ k.length = 32 then
    .ok (xorKS (c.ks k iv0) p1, xorKS (c.ks k iv1) p2)
  else
    .err ("crypto/aes: invalid key size " ++ toString k.length)

/-- Function computeJKL from adss.go: the four domain separated digests of
the concatenated input, J being digests 1 and 2 concatenated. -/
def computeJKL (c : CryptoPrims) (a : AccessStructure) (m r t : List Nat) :
    List Nat × List Nat × List Nat :=
  let input := a.bytes ++ m ++ r ++ t
  (c.sha256 (1 :: input) ++ c.sha256 (2 :: input),
   c.sha256 (3 :: input),
   c.sha256 (4 :: input))

/-- Function s1Share: one polynomial per byte of the secret `m`, with that
byte as constant term and `a.t - 1` coefficients drawn sequentially from
the HKDF stream keyed by `r` with info `t`, evaluated at party index + 1.
Subtraction and the evaluation point are reduced mod 256 as the Go code
computes them on uint8.  The byte count drawn per block follows the spec
(t - 1 coefficients per polynomial, read in block order). -/
def s1Share (c : CryptoPrims) (p : PolyEngine) (a : AccessStructure)
    (m r t : List Nat) : List S1SecretShare :=
  let deg := (a.t + 255) % 256
  (List.range a.n).map fun j =>
    { i := j, t := a.t, n := a.n,
      secret := (List.range m.length).map fun bIdx =>
        p.evalAt (m.getD bIdx 0 ::
            (List.range deg).map fun cIdx => c.prf r t (deg * bIdx + cIdx))
          ((j + 1) % 256) }

/-- Function s1Recover: checks the share count against the threshold taken
from the first share, then interpolates each byte position at zero over the
points (index + 1 mod 256, secret byte).  Out-of-range secret indexing,
which would panic in Go, is modelled by getD with default 0; it is
unreachable for shares of equal secret length. -/
def s1Recover (p : PolyEngine) (shares : List S1SecretShare) :
    GoExcept (List Nat) :=
  match shares with
  | [] => .err "missing argument: shares, was nil or 0 length"
  | s0 :: _ =>
    let t := shares.length
    let k := s0.t
    let mLen := s0.secret.length
    if t < k then
      .err ("not enough shares provided, got: " ++ toString t ++
        ", need: " ++ toString k)
    else
      .ok ((List.range mLen).map fun i =>
        p.interpolate (shares.map fun s => (s.i + 1) % 256)
          (shares.map fun s => s.secret.getD i 0) 0)

/-- Function internalShare from adss.go: hash the inputs to J, K, L,
encrypt message and randomness into C and D under K, split K with the base
layer seeded by L and info nil, and assemble one share per base share.
The Go loop fills a slice of length a.n; the base layer returns exactly
a.n shares, so mapping over them is the same assembly. -/
def internalShare (c : CryptoPrims) (p : PolyEngine) (a : AccessStructure)
    (m r t : List Nat) : GoExcept (List SecretShare) :=
  let jkl := computeJKL c a m r t
  match xorKeyStreamTwoInputs c jkl.2.1 m r with
  | .err e => .err e
  | .ok cd =>
    .ok ((s1Share c p a jkl.2.1 jkl.2.2 []).map fun s1 =>
      { as := a, id := s1.i, pubC := cd.1, pubD := cd.2, pubJ := jkl.1,
        sec := s1.secret, tag := t })

/-- Function isSubset from adss.go: a length check followed by a quadratic
membership test using byte-serialization equality. -/
def isSubset (subset set : List SecretShare) : Bool :=
  if subset.length > set.length then false
  else subset.all fun x => set.any fun y => x.equal y

/-- Function sharesDesc from adss.go: renders the IDs of a share list. -/
def sharesDesc (shares : List SecretShare) : String :=
  "\x7b" ++ String.intercalate ", " (shares.map fun s => "ID:" ++ toString s.id)
    ++ "\x7d"

/-- Function kSubsets from adss.go.  For k equal to the pool size the pool
itself is the only output.  Otherwise the triple loop emits, for every
start index i and every window start j > i while j + k - 1 does not exceed
the pool size, the element at i followed by the k - 1 elements at
j, j+1, ....  The takeWhile captures the break statement.  The k > length
branch panics in Go and is unreachable from the callers; here the loops
then simply produce no output. -/
def kSubsets (k : Nat) (shares : List SecretShare) : List (List SecretShare) :=
  if k = shares.length then [shares]
  else
    (List.range shares.length).flatMap fun i =>
      (((List.range shares.length).drop (i + 1)).takeWhile
          fun j => decide (j + k - 1 ≤ shares.length)).map fun j =>
        shares.getD i default ::
          (List.range (k - 1)).map fun o => shares.getD (j + o) default

/-- Consistency scan of computeKPlausibleShareSets: every share after the
first is compared to the access structure and tag of the first, and the
seen-index set (a Go map, modelled by a list) rejects duplicates. -/
def validateShares (as0 : AccessStructure) (tag0 : List Nat) :
    List SecretShare → List Nat → Option String
  | [], _ => none
  | s :: more, seen =>
    if s.as ≠ as0 then some "shares have inconsistent access structures"
    else if s.tag ≠ tag0 then some "shares have inconsistent tags"
    else if s.id ∈ seen then some "duplicate share ID found"
    else validateShares as0 tag0 more (s.id :: seen)

/-- Function computeKPlausibleShareSets from adss.go: an empty pool is
rejected, the pool is validated for consistency, and the candidate subsets
are the k-subsets for k from the pool size down to the threshold,
concatenated largest size first. -/
def computeKPlausibleShareSets (shares : List SecretShare) :
    GoExcept (List (List SecretShare)) :=
  match shares with
  | [] => .err "no shares provided"
  | s0 :: rest =>
    match validateShares s0.as s0.tag rest [s0.id] with
    | some e => .err e
    | none =>
      .ok (((List.range' s0.as.t (shares.length + 1 - s0.as.t)).reverse).flatMap
        fun k => kSubsets k shares)

/-- Function axRecover from adss.go: recombine the base shares, decrypt C
and D under the recombined key, verify the recomputed J and K digests,
check the (stubbed) supported-ID-set predicate, re-share with the
recovered parameters and require the input to be a subset of the
resharing.  The two Go panics (indexing shares[0] of an empty list, which
s1Recover already excludes, and a failing reshare) are modelled as
distinguished errors and are unreachable on the paths the claims concern. -/
def axRecover (c : CryptoPrims) (p : PolyEngine) (shares : List SecretShare) :
    GoExcept (List Nat) :=
  match s1Recover p (shares.map SecretShare.toS1) with
  | .err e => .err e
  | .ok k =>
    match shares with
    | [] => .err "panic: index out of range"
    | share0 :: _ =>
      match xorKeyStreamTwoInputs c k share0.pubC share0.pubD with
      | .err e => .err e
      | .ok mr =>
        let jkl := computeJKL c share0.as mr.1 mr.2 share0.tag
        if jkl.1 = share0.pubJ ∧ jkl.2.1 = k then
          if share0.as.isSupportedIDSet (shares.map SecretShare.id) then
            match internalShare c p share0.as mr.1 mr.2 share0.tag with
            | .err e => .err ("panic: " ++ e)
            | .ok reshares =>
              if isSubset shares reshares then .ok mr.1
              else .err "not a subset of resharing"
          else .err "unsupported share IDs"
        else .err "checksum failed"

/-- Scan of the first loop of exAxRecover: find the first candidate that
axRecover accepts, returning its index, message and share set, or, when
none is accepted, the last error (none when there was no candidate at all,
leaving the nil error of the Go code in place). -/
def firstExplanation (c : CryptoPrims) (p : PolyEngine) :
    List (List SecretShare) → Nat →
    Option String ⊕ (Nat × List Nat × List SecretShare)
  | [], _ => .inl none
  | s :: rest, i =>
    match axRecover c p s with
    | .ok m => .inr (i, m, s)
    | .err e =>
      match firstExplanation c p rest (i + 1) with
      | .inl none => .inl (some e)
      | .inl (some e2) => .inl (some e2)
      | .inr r => .inr r

/-- Scan of the second loop of exAxRecover: candidates after the first
explanation that fail are skipped; a succeeding candidate that is not a
subset of the first explanation is an ambiguity. -/
def checkLater (c : CryptoPrims) (p : PolyEngine) (v : List SecretShare) :
    List (List SecretShare) → Option String
  | [] => none
  | w :: rest =>
    match axRecover c p w with
    | .err _ => checkLater c p v rest
    | .ok _ =>
      if isSubset w v then checkLater c p v rest
      else some ("multiple explanations: " ++ sharesDesc w ++ " and " ++
        sharesDesc v)

/-- Ambiguity error message produced by exAxRecover. -/
def ambiguousMsg (w v : List SecretShare) : String :=
  "multiple explanations: " ++ sharesDesc w ++ " and " ++ sharesDesc v

/-- Outcome of Recover: a recovered message with the accepted share set, a
returned error, or a Go runtime panic. -/
inductive RecResult where
  | ok (m : List Nat) (v : List SecretShare)
  | goError (msg : String)
  | goPanic (msg : String)
deriving DecidableEq

/-- Function exAxRecover from adss.go.  Candidate enumeration errors are
wrapped as plausible-shares errors; if every candidate fails the last error
is wrapped as a recovery error.  When the candidate list is empty the loop
leaves the nil error in place and the Go code slices allShareSets[1:] of an
empty slice, a runtime panic, modelled by the goPanic value. -/
def exAxRecover (c : CryptoPrims) (p : PolyEngine) (shares : List SecretShare) :
    RecResult :=
  match computeKPlausibleShareSets shares with
  | .err e => .goError ("plausible shares: " ++ e)
  | .ok cands =>
    match firstExplanation c p cands 0 with
    | .inl (some e) => .goError ("recovery: " ++ e)
    | .inl none => .goPanic "runtime error: slice bounds out of range [1:0]"
    | .inr r =>
      match checkLater c p r.2.2 (cands.drop (r.1 + 1)) with
      | some e => .goError e
      | none => .ok r.2.1 r.2.2

/-- Function Recover from adss.go delegates to exAxRecover. -/
def Recover (c : CryptoPrims) (p : PolyEngine) (shares : List SecretShare) :
    RecResult :=
  exAxRecover c p shares

/-- Function Share from adss.go draws 32 random bytes r and delegates to
internalShare; the random input is passed explicitly here. -/
def Share (c : CryptoPrims) (p : PolyEngine) (a : AccessStructure)
    (m t r : List Nat) : GoExcept (List SecretShare) :=
  internalShare c p a m r t

/-- Modelled from the spec: the sharing step 4 of section 4.5 as literally
written there, `baseShares = split(accessStructure, K, R)`, i.e. the base
layer seeded with the sharing randomness R rather than with the digest L.
This definition exists only to compare the spec wording against the code,
which passes L. -/
def internalShareSpecSeedR (c : CryptoPrims) (p : PolyEngine)
    (a : AccessStructure) (m r t : List Nat) : GoExcept (List SecretShare) :=
  let jkl := computeJKL c a m r t
  match xorKeyStreamTwoInputs c jkl.2.1 m r with
  | .err e => .err e
  | .ok cd =>
    .ok ((s1Share c p a jkl.2.1 r []).map fun s1 =>
      { as := a, id := s1.i, pubC := cd.1, pubD := cd.2, pubJ := jkl.1,
        sec := s1.secret, tag := t })

/-- Coefficient list of the base layer polynomial for one message byte:
the byte itself followed by the t - 1 PRF coefficients for that block. -/
def s1Coeffs (c : CryptoPrims) (a : AccessStructure) (m r t : List Nat)
    (bIdx : Nat) : List Nat :=
  m.getD bIdx 0 ::
    (List.range ((a.t + 255) % 256)).map fun cIdx =>
      c.prf r t (((a.t + 255) % 256) * bIdx + cIdx)

/-- Secret byte list handed to party j by the base layer. -/
def s1Sec (c : CryptoPrims) (p : PolyEngine) (a : AccessStructure)
    (m r t : List Nat) (j : Nat) : List Nat :=
  (List.range m.length).map fun bIdx =>
    p.evalAt (s1Coeffs c a m r t bIdx) ((j + 1) % 256)

/-- Explicit form of the share handed to party j by internalShare. -/
def outerShare (c : CryptoPrims) (p : PolyEngine) (a : AccessStructure)
    (m r t : List Nat) (j : Nat) : SecretShare :=
  { as := a, id := j,
    pubC := xorKS (c.ks (computeJKL c a m r t).2.1 iv0) m,
    pubD := xorKS (c.ks (computeJKL c a m r t).2.1 iv1) r,
    pubJ := (computeJKL c a m r t).1,
    sec := s1Sec c p a (computeJKL c a m r t).2.1 (computeJKL c a m r t).2.2 [] j,
    tag := t }

/-- Explicit form of the share list produced by internalShare. -/
def mkOuterShares (c : CryptoPrims) (p : PolyEngine) (a : AccessStructure)
    (m r t : List Nat) : List SecretShare :=
  (List.range a.n).map (outerShare c p a m r t)

/-- Concrete stand-in for the external primitives, used to witness the
abstract theorems at evaluable inputs: digests fold the input into a sum,
keystreams and PRF stream are simple byte-valued functions.  The bundled
facts hold for it, which is all the core relies on. -/
def sumCrypto : CryptoPrims where
  sha256 l := (List.range 32).map fun i => (l.sum + i) % 256
  ks k iv i := (k.sum + iv.sum + i) % 256
  prf seed _info i := (seed.headD 0 + 31 * i) % 256
  sha256_len l := by simp
  sha256_lt l b hb := by
    simp only [List.mem_map] at hb
    obtain ⟨i, _, rfl⟩ := hb
    exact Nat.mod_lt _ (by norm_num)
  prf_lt seed info i := Nat.mod_lt _ (by norm_num)

/-- Concrete instance of the modelled polynomial engine, used to witness
the abstract theorems at evaluable inputs: evaluation encodes the whole
coefficient list in base 256 and interpolation projects the constant term
back out of the first sample.  It satisfies the exactness property of the
model, which is the only fact the core relies on. -/
def headProjEngine : PolyEngine where
  evalAt coeffs _x := coeffs.foldr (fun c acc => c + 256 * acc) 0
  interpolate _xs ys _x := ys.headD 0 % 256
  interp_exact := by
    intro coeffs xs hne hlt _hnd _hxlt hlen
    match coeffs, hne with
    | c0 :: cs, _ =>
      match xs, hlen with
      | x0 :: xs2, _ =>
        simp only [List.map_cons, List.headD_cons, List.foldr_cons]
        rw [Nat.add_mul_mod_self_left]
        exact Nat.mod_eq_of_lt (hlt c0 (List.mem_cons_self c0 cs))

/-- Test for the error constructor of GoExcept, used to state which
candidates fail recovery in a decidable way. -/
def isErr {α : Type} : GoExcept α → Bool
  | .ok _ => false
  | .err _ => true

/-- Randomness value used by the concrete witnesses. -/
def wRand : List Nat := List.replicate 32 0

/-- Second randomness value, giving an independent sharing. -/
def wRand2 : List Nat := List.replicate 32 3

/-- Access structure (2, 3) used by the concrete witnesses. -/
def wA23 : AccessStructure := ⟨2, 3⟩

/-- Access structure (2, 2) used by the concrete witnesses. -/
def wA22 : AccessStructure := ⟨2, 2⟩

/-- Access structure (2, 5) used by the ambiguity witness. -/
def wA25 : AccessStructure := ⟨2, 5⟩

/-- Message used by the concrete witnesses. -/
def wMsg : List Nat := [7]

/-- Associated data used by the concrete witnesses. -/
def wTag : List Nat := [5]

/-- Concrete honest sharing used by the witnesses. -/
def wShares : List SecretShare :=
  mkOuterShares sumCrypto headProjEngine wA23 wMsg wRand wTag

/-- First sharing of the ambiguity pool. -/
def wSh1 : List SecretShare :=
  mkOuterShares sumCrypto headProjEngine wA25 [9] wRand [4]

/-- Second, independent sharing of the same message and tag. -/
def wSh2 : List SecretShare :=
  mkOuterShares sumCrypto headProjEngine wA25 [9] wRand2 [4]

/-- Mixed pool combining two shares of each sharing under distinct ids. -/
def wAmbPool : List SecretShare :=
  [wSh1.getD 0 default, wSh1.getD 1 default,
   wSh2.getD 2 default, wSh2.getD 3 default]

/-- Bare share with a given id, for the enumeration and validation pools. -/
def wPlain (i : Nat) : SecretShare := ⟨wA23, i, [], [], [], [], []⟩

/-- Four-element pool for the subset enumeration counterexample. -/
def wPool4 : List SecretShare := [wPlain 0, wPlain 1, wPlain 2, wPlain 3]

/-- Share with a different access structure, for pool validation. -/
def wBadAs : SecretShare := ⟨⟨3, 3⟩, 1, [], [], [], [], []⟩

/-- Share with a different tag, for pool validation. -/
def wBadTag : SecretShare := ⟨wA23, 1, [], [], [], [], [9]⟩

/-- Honest share 0 with its first ciphertext byte incremented, as in the
modified-C test of adss_test.go. -/
def wTampC : SecretShare :=
  let s := wShares.getD 0 default
  { s with pubC := (s.pubC.getD 0 0 + 1) :: s.pubC.drop 1 }

/-- Pool of the tampered share plus an honest share. -/
def wC6Pool : List SecretShare := [wTampC, wShares.getD 1 default]

/-- Candidate list of the ambiguity pool (sizes 4, 3, 2, largest first). -/
def wAmbCands : List (List SecretShare) :=
  ((List.range' 2 3).reverse).flatMap fun k => kSubsets k wAmbPool

/-- First successful candidate of the ambiguity pool: the two shares of
the first sharing. -/
def wAmbV : List SecretShare := [wSh1.getD 0 default, wSh1.getD 1 default]

/-- Candidate list of the plain three-share pool. -/
def wCands3 : List (List SecretShare) :=
  ((List.range' 2 2).reverse).flatMap fun k =>
    kSubsets k [wPlain 0, wPlain 1, wPlain 2]

/-! Basic facts about the keystream, the hash layer and internalShare. -/

theorem xorKSFrom_invol (ks : Nat → Nat) (p : List Nat) :
    ∀ i, xorKSFrom ks i (xorKSFrom ks i p) = p := by
  induction p with
  | nil => intro i; rfl
  | cons b rest ih =>
    intro i
    simp only [xorKSFrom, Nat.xor_cancel_right]
    exact congrArg (b :: ·) (ih (i + 1))

theorem xorKS_invol (ks : Nat → Nat) (p : List Nat) :
    xorKS ks (xorKS ks p) = p :=
  xorKSFrom_invol ks p 0

theorem getD_range_map {α : Type} (l : List α) (d : α) :
    (List.range l.length).map (fun i => l.getD i d) = l := by
  apply List.ext_getElem
  · simp
  · intro i h1 h2
    simp only [List.getElem_map, List.getElem_range]
    exact List.getD_eq_getElem l d h2

theorem shareK_length (c : CryptoPrims) (a : AccessStructure) (m r t : List Nat) :
    (computeJKL c a m r t).2.1.length = 32 :=
  c.sha256_len _

theorem shareJ_length (c : CryptoPrims) (a : AccessStructure) (m r t : List Nat) :
    (computeJKL c a m r t).1.length = 64 := by
  simp [computeJKL, c.sha256_len]

theorem s1Share_eq (c : CryptoPrims) (p : PolyEngine) (a : AccessStructure)
    (m r t : List Nat) :
    s1Share c p a m r t =
      (List.range a.n).map fun j =>
        { i := j, t := a.t, n := a.n, secret := s1Sec c p a m r t j } :=
  rfl

theorem internalShare_ok (c : CryptoPrims) (p : PolyEngine) (a : AccessStructure)
    (m r t : List Nat) :
    internalShare c p a m r t = .ok (mkOuterShares c p a m r t) := by
  simp only [internalShare, xorKeyStreamTwoInputs, shareK_length]
  norm_num
  simp only [mkOuterShares, s1Share_eq, List.map_map]
  rfl

/-! Facts about pool validation and candidate enumeration. -/

theorem validateShares_none (as0 : AccessStructure) (tag0 : List Nat) :
    ∀ (rest : List SecretShare) (seen : List Nat),
      (∀ s ∈ rest, s.as = as0) → (∀ s ∈ rest, s.tag = tag0) →
      (rest.map SecretShare.id).Nodup → (∀ s ∈ rest, s.id ∉ seen) →
      validateShares as0 tag0 rest seen = none := by
  intro rest
  induction rest with
  | nil => intros; rfl
  | cons s more ih =>
    intro seen hAs hTag hNd hSeen
    have hs1 : ¬ s.as ≠ as0 := by simp [hAs s (List.mem_cons_self s more)]
    have hs2 : ¬ s.tag ≠ tag0 := by simp [hTag s (List.mem_cons_self s more)]
    have hs3 : s.id ∉ seen := hSeen s (List.mem_cons_self s more)
    simp only [validateShares, if_neg hs1, if_neg hs2, if_neg hs3]
    simp only [List.map_cons, List.nodup_cons] at hNd
    refine ih (s.id :: seen) (fun x hx => hAs x (List.mem_cons_of_mem s hx))
      (fun x hx => hTag x (List.mem_cons_of_mem s hx)) hNd.2 ?_
    intro x hx
    simp only [List.mem_cons]
    push_neg
    constructor
    · intro hEq
      exact hNd.1 (hEq ▸ List.mem_map_of_mem SecretShare.id hx)
    · exact hSeen x (List.mem_cons_of_mem s hx)

theorem validateShares_as (as0 : AccessStructure) (tag0 : List Nat) :
    ∀ (rest : List SecretShare) (seen : List Nat),
      (∃ s ∈ rest, s.as ≠ as0) → (∀ s ∈ rest, s.tag = tag0) →
      (rest.map SecretShare.id).Nodup → (∀ s ∈ rest, s.id ∉ seen) →
      validateShares as0 tag0 rest seen =
        some "shares have inconsistent access structures" := by
  intro rest
  induction rest with
  | nil => intro seen h; exact absurd h (by simp)
  | cons s more ih =>
    intro seen hEx hTag hNd hSeen
    by_cases hs : s.as ≠ as0
    · simp only [validateShares, if_pos hs]
    · have hs2 : ¬ s.tag ≠ tag0 := by simp [hTag s (List.mem_cons_self s more)]
      have hs3 : s.id ∉ seen := hSeen s (List.mem_cons_self s more)
      simp only [validateShares, if_neg hs, if_neg hs2, if_neg hs3]
      simp only [List.map_cons, List.nodup_cons] at hNd
      obtain ⟨w, hw, hwAs⟩ := hEx
      rcases List.mem_cons.1 hw with rfl | hw2
      · exact absurd hwAs hs
      refine ih (s.id :: seen) ⟨w, hw2, hwAs⟩
        (fun x hx => hTag x (List.mem_cons_of_mem s hx)) hNd.2 ?_
      intro x hx
      simp only [List.mem_cons]
      push_neg
      exact ⟨fun hEq => hNd.1 (hEq ▸ List.mem_map_of_mem SecretShare.id hx),
        hSeen x (List.mem_cons_of_mem s hx)⟩

theorem validateShares_tag (as0 : AccessStructure) (tag0 : List Nat) :
    ∀ (rest : List SecretShare) (seen : List Nat),
      (∀ s ∈ rest, s.as = as0) → (∃ s ∈ rest, s.tag ≠ tag0) →
      (rest.map SecretShare.id).Nodup → (∀ s ∈ rest, s.id ∉ seen) →
      validateShares as0 tag0 rest seen =
        some "shares have inconsistent tags" := by
  intro rest
  induction rest with
  | nil => intro seen _ h; exact absurd h (by simp)
  | cons s more ih =>
    intro seen hAs hEx hNd hSeen
    have hs1 : ¬ s.as ≠ as0 := by simp [hAs s (List.mem_cons_self s more)]
    by_cases hs : s.tag ≠ tag0
    · simp only [validateShares, if_neg hs1, if_pos hs]
    · have hs3 : s.id ∉ seen := hSeen s (List.mem_cons_self s more)
      simp only [validateShares, if_neg hs1, if_neg hs, if_neg hs3]
      simp only [List.map_cons, List.nodup_cons] at hNd
      obtain ⟨w, hw, hwTag⟩ := hEx
      rcases List.mem_cons.1 hw with rfl | hw2
      · exact absurd hwTag hs
      refine ih (s.id :: seen) (fun x hx => hAs x (List.mem_cons_of_mem s hx))
        ⟨w, hw2, hwTag⟩ hNd.2 ?_
      intro x hx
      simp only [List.mem_cons]
      push_neg
      exact ⟨fun hEq => hNd.1 (hEq ▸ List.mem_map_of_mem SecretShare.id hx),
        hSeen x (List.mem_cons_of_mem s hx)⟩

theorem validateShares_dup (as0 : AccessStructure) (tag0 : List Nat) :
    ∀ (rest : List SecretShare) (seen : List Nat),
      (∀ s ∈ rest, s.as = as0) → (∀ s ∈ rest, s.tag = tag0) →
      ¬ (seen ++ rest.map SecretShare.id).Nodup → seen.Nodup →
      validateShares as0 tag0 rest seen =
        some "duplicate share ID found" := by
  intro rest
  induction rest with
  | nil => intro seen _ _ hBad hSeen; exact absurd hSeen (by simpa using hBad)
  | cons s more ih =>
    intro seen hAs hTag hBad hSeen
    have hs1 : ¬ s.as ≠ as0 := by simp [hAs s (List.mem_cons_self s more)]
    have hs2 : ¬ s.tag ≠ tag0 := by simp [hTag s (List.mem_cons_self s more)]
    by_cases hs : s.id ∈ seen
    · simp only [validateShares, if_neg hs1, if_neg hs2, if_pos hs]
    · simp only [validateShares, if_neg hs1, if_neg hs2, if_neg hs]
      refine ih (s.id :: seen) (fun x hx => hAs x (List.mem_cons_of_mem s hx))
        (fun x hx => hTag x (List.mem_cons_of_mem s hx)) ?_ (by simp [hs, hSeen])
      intro hGood
      apply hBad
      have hperm : (seen ++ s.id :: more.map SecretShare.id).Perm
          ((s.id :: seen) ++ more.map SecretShare.id) :=
        List.perm_middle
      simpa using hperm.nodup_iff.2 hGood

theorem mkOuterShares_length (c : CryptoPrims) (p : PolyEngine)
    (a : AccessStructure) (m r t : List Nat) :
    (mkOuterShares c p a m r t).length = a.n := by
  simp [mkOuterShares]

theorem mkOuterShares_map_id (c : CryptoPrims) (p : PolyEngine)
    (a : AccessStructure) (m r t : List Nat) :
    (mkOuterShares c p a m r t).map SecretShare.id = List.range a.n := by
  simp only [mkOuterShares, List.map_map]
  exact List.map_id (List.range a.n)

theorem kSubsets_self (l : List SecretShare) : kSubsets l.length l = [l] := by
  simp [kSubsets]

theorem kSubsets_mem_mem {k : Nat} {l : List SecretShare}
    {w : List SecretShare} (hw : w ∈ kSubsets k l) :
    ∀ x ∈ w, x ∈ l := by
  unfold kSubsets at hw
  by_cases hkl : k = l.length
  · rw [if_pos hkl] at hw
    simp only [List.mem_singleton] at hw
    subst hw
    exact fun x hx => hx
  · rw [if_neg hkl] at hw
    simp only [List.mem_flatMap, List.mem_map] at hw
    obtain ⟨i, hi, j, hj, rfl⟩ := hw
    have hiLt : i < l.length := List.mem_range.1 hi
    have hjP := List.mem_takeWhile_imp
      (p := fun j => decide (j + k - 1 ≤ l.length)) hj
    have hjLe : j + k - 1 ≤ l.length := of_decide_eq_true hjP
    intro x hx
    rcases List.mem_cons.1 hx with rfl | hx2
    · rw [List.getD_eq_getElem l default hiLt]
      exact List.getElem_mem hiLt
    · simp only [List.mem_map, List.mem_range] at hx2
      obtain ⟨o, ho, rfl⟩ := hx2
      have hoLt : j + o < l.length := by omega
      rw [List.getD_eq_getElem l default hoLt]
      exact List.getElem_mem hoLt

theorem kSubsets_mem_length {k : Nat} {l : List SecretShare}
    {w : List SecretShare} (hw : w ∈ kSubsets k l) (hk : 1 ≤ k) :
    w.length = k := by
  unfold kSubsets at hw
  by_cases hkl : k = l.length
  · rw [if_pos hkl] at hw
    simp only [List.mem_singleton] at hw
    subst hw
    exact hkl.symm
  · rw [if_neg hkl] at hw
    simp only [List.mem_flatMap, List.mem_map] at hw
    obtain ⟨i, _, j, _, rfl⟩ := hw
    simp only [List.length_cons, List.length_map, List.length_range]
    omega

theorem sizesDesc_eq {t len : Nat} (h : t ≤ len) :
    (List.range' t (len + 1 - t)).reverse =
      len :: (List.range' t (len - t)).reverse := by
  have hc : len + 1 - t = (len - t) + 1 := by omega
  rw [hc, List.range'_concat, List.reverse_append]
  simp only [List.reverse_cons, List.reverse_nil, List.nil_append,
    List.singleton_append]
  congr 1
  omega

theorem sizes_mem_bounds {t len k : Nat}
    (hk : k ∈ (List.range' t (len + 1 - t)).reverse) :
    t ≤ k ∧ k ≤ len := by
  rw [List.mem_reverse] at hk
  obtain ⟨i, hi, rfl⟩ := List.mem_range'.1 hk
  omega

theorem isSubset_of_sub {w s : List SecretShare}
    (hl : w.length ≤ s.length) (hm : ∀ x ∈ w, x ∈ s) :
    isSubset w s = true := by
  unfold isSubset
  rw [if_neg (by omega)]
  rw [List.all_eq_true]
  intro x hx
  rw [List.any_eq_true]
  exact ⟨x, hm x hx, by simp [SecretShare.equal]⟩

/-! Honest-sharing recovery chain. -/

theorem degMod {t : Nat} (h1 : 1 ≤ t) (h2 : t ≤ 256) :
    (t + 255) % 256 = t - 1 := by
  omega

theorem s1Sec_length (c : CryptoPrims) (p : PolyEngine) (a : AccessStructure)
    (m r t : List Nat) (j : Nat) :
    (s1Sec c p a m r t j).length = m.length := by
  simp [s1Sec]

theorem s1Sec_getD (c : CryptoPrims) (p : PolyEngine) (a : AccessStructure)
    (m r t : List Nat) (j : Nat) {i : Nat} (hi : i < m.length) :
    (s1Sec c p a m r t j).getD i 0 =
      p.evalAt (s1Coeffs c a m r t i) ((j + 1) % 256) := by
  have hlen : i < (s1Sec c p a m r t j).length := by
    rw [s1Sec_length]; exact hi
  rw [List.getD_eq_getElem _ _ hlen]
  simp [s1Sec]

theorem s1Coeffs_ne_nil (c : CryptoPrims) (a : AccessStructure)
    (m r t : List Nat) (bIdx : Nat) : s1Coeffs c a m r t bIdx ≠ [] := by
  simp [s1Coeffs]

theorem s1Coeffs_length (c : CryptoPrims) (a : AccessStructure)
    (m r t : List Nat) (bIdx : Nat) (h1 : 1 ≤ a.t) (h2 : a.t ≤ 256) :
    (s1Coeffs c a m r t bIdx).length = a.t := by
  simp [s1Coeffs, degMod h1 h2]
  omega

theorem s1Coeffs_lt (c : CryptoPrims) (a : AccessStructure)
    (m r t : List Nat) (bIdx : Nat) (hm : ∀ b ∈ m, b < 256) (hb : bIdx < m.length) :
    ∀ b ∈ s1Coeffs c a m r t bIdx, b < 256 := by
  intro b hbIn
  simp only [s1Coeffs, List.mem_cons, List.mem_map] at hbIn
  rcases hbIn with rfl | ⟨cIdx, _, rfl⟩
  · exact hm _ (by rw [List.getD_eq_getElem m 0 hb]; exact List.getElem_mem hb)
  · exact c.prf_lt _ _ _

theorem mkOuterShares_toS1 (c : CryptoPrims) (p : PolyEngine)
    (a : AccessStructure) (m r t : List Nat) :
    (mkOuterShares c p a m r t).map SecretShare.toS1 =
      (List.range a.n).map fun j =>
        { i := j, t := a.t, n := a.n,
          secret := s1Sec c p a (computeJKL c a m r t).2.1
            (computeJKL c a m r t).2.2 [] j } := by
  simp only [mkOuterShares, List.map_map]
  rfl

theorem s1Recover_cons (p : PolyEngine) (s0 : S1SecretShare)
    (rest : List S1SecretShare) :
    s1Recover p (s0 :: rest) =
      (if (s0 :: rest).length < s0.t then
        .err ("not enough shares provided, got: " ++
          toString (s0 :: rest).length ++ ", need: " ++ toString s0.t)
      else
        .ok ((List.range s0.secret.length).map fun i =>
          p.interpolate ((s0 :: rest).map fun s => (s.i + 1) % 256)
            ((s0 :: rest).map fun s => s.secret.getD i 0) 0)) :=
  rfl

theorem s1Recover_range (p : PolyEngine) (a : AccessStructure)
    (sec : Nat → List Nat) (secLen : Nat)
    (hn1 : 1 ≤ a.n) (htn : a.t ≤ a.n) (hn : a.n ≤ 255)
    (hsecLen : ∀ j, (sec j).length = secLen)
    (coeffs : Nat → List Nat)
    (hcne : ∀ i, coeffs i ≠ [])
    (hclt : ∀ i, i < secLen → ∀ b ∈ coeffs i, b < 256)
    (hclen : ∀ i, (coeffs i).length = a.t)
    (hsec : ∀ j i, i < secLen →
      (sec j).getD i 0 = p.evalAt (coeffs i) ((j + 1) % 256)) :
    s1Recover p ((List.range a.n).map fun j =>
        (⟨j, a.t, a.n, sec j⟩ : S1SecretShare)) =
      .ok ((List.range secLen).map fun i => (coeffs i).headD 0) := by
  obtain ⟨n2, hn2⟩ : ∃ n2, a.n = n2 + 1 := ⟨a.n - 1, by omega⟩
  have hcons : (List.range a.n).map (fun j =>
      (⟨j, a.t, a.n, sec j⟩ : S1SecretShare)) =
      (⟨0, a.t, a.n, sec 0⟩ : S1SecretShare) ::
        (List.range' 1 n2).map (fun j => (⟨j, a.t, a.n, sec j⟩ : S1SecretShare)) := by
    rw [List.range_eq_range', hn2, List.range'_succ]
    simp
  rw [hcons, s1Recover_cons, ← hcons]
  have hlen : ((List.range a.n).map (fun j =>
      (⟨j, a.t, a.n, sec j⟩ : S1SecretShare))).length = a.n := by
    simp
  rw [if_neg (by rw [hlen]; show ¬ a.n < a.t; omega)]
  refine congrArg GoExcept.ok ?_
  show (List.range (sec 0).length).map _ = _
  rw [hsecLen 0]
  refine List.map_congr_left ?_
  intro i hi
  have hiLt : i < secLen := List.mem_range.1 hi
  have hxs : ((List.range a.n).map (fun j =>
      (⟨j, a.t, a.n, sec j⟩ : S1SecretShare))).map (fun s => (s.i + 1) % 256) =
      (List.range a.n).map (fun j => (j + 1) % 256) := by
    rw [List.map_map]
    rfl
  have hxs2 : (List.range a.n).map (fun j => (j + 1) % 256) =
      (List.range a.n).map (fun j => j + 1) := by
    refine List.map_congr_left ?_
    intro j hj
    have : j < a.n := List.mem_range.1 hj
    omega
  have hys : ((List.range a.n).map (fun j =>
      (⟨j, a.t, a.n, sec j⟩ : S1SecretShare))).map (fun s => s.secret.getD i 0) =
      (((List.range a.n).map (fun j =>
        (⟨j, a.t, a.n, sec j⟩ : S1SecretShare))).map
          (fun s => (s.i + 1) % 256)).map (p.evalAt (coeffs i)) := by
    simp only [List.map_map]
    refine List.map_congr_left ?_
    intro j _
    exact hsec j i hiLt
  rw [hys]
  refine p.interp_exact (coeffs i) _ (hcne i) (hclt i hiLt) ?_ ?_ ?_
  · rw [hxs, hxs2]
    refine List.Nodup.map_on ?_ (List.nodup_range a.n)
    intro x _ y _ h
    omega
  · rw [hxs, hxs2]
    intro x hx
    simp only [List.mem_map, List.mem_range] at hx
    obtain ⟨j, hj, rfl⟩ := hx
    omega
  · rw [hxs, hxs2]
    simp only [List.length_map, List.length_range]
    rw [hclen i]
    exact htn

/-! Unfolding steps for the match layers of axRecover and exAxRecover. -/

theorem axRecover_of_s1 (c : CryptoPrims) (p : PolyEngine)
    (share0 : SecretShare) (tail : List SecretShare) (k : List Nat)
    (hs1 : s1Recover p ((share0 :: tail).map SecretShare.toS1) = .ok k) :
    axRecover c p (share0 :: tail) =
      (match xorKeyStreamTwoInputs c k share0.pubC share0.pubD with
       | .err e => .err e
       | .ok mr =>
         if (computeJKL c share0.as mr.1 mr.2 share0.tag).1 = share0.pubJ ∧
            (computeJKL c share0.as mr.1 mr.2 share0.tag).2.1 = k then
           if share0.as.isSupportedIDSet
               ((share0 :: tail).map SecretShare.id) then
             match internalShare c p share0.as mr.1 mr.2 share0.tag with
             | .err e => .err ("panic: " ++ e)
             | .ok reshares =>
               if isSubset (share0 :: tail) reshares then .ok mr.1
               else .err "not a subset of resharing"
           else .err "unsupported share IDs"
         else .err "checksum failed") := by
  unfold axRecover
  rw [hs1]

theorem axRecover_s1_err (c : CryptoPrims) (p : PolyEngine)
    (shares : List SecretShare) (e : String)
    (hs1 : s1Recover p (shares.map SecretShare.toS1) = .err e) :
    axRecover c p shares = .err e := by
  unfold axRecover
  rw [hs1]

theorem axRecover_of_xor (c : CryptoPrims) (p : PolyEngine)
    (share0 : SecretShare) (tail : List SecretShare) (k mm rr : List Nat)
    (hs1 : s1Recover p ((share0 :: tail).map SecretShare.toS1) = .ok k)
    (hxor : xorKeyStreamTwoInputs c k share0.pubC share0.pubD = .ok (mm, rr)) :
    axRecover c p (share0 :: tail) =
      (if (computeJKL c share0.as mm rr share0.tag).1 = share0.pubJ ∧
          (computeJKL c share0.as mm rr share0.tag).2.1 = k then
        if share0.as.isSupportedIDSet ((share0 :: tail).map SecretShare.id) then
          match internalShare c p share0.as mm rr share0.tag with
          | .err e => .err ("panic: " ++ e)
          | .ok reshares =>
            if isSubset (share0 :: tail) reshares then .ok mm
            else .err "not a subset of resharing"
        else .err "unsupported share IDs"
      else .err "checksum failed") := by
  rw [axRecover_of_s1 c p share0 tail k hs1, hxor]

theorem checkLater_cons_err (c : CryptoPrims) (p : PolyEngine)
    (v w : List SecretShare) (rest : List (List SecretShare)) (e : String)
    (hax : axRecover c p w = .err e) :
    checkLater c p v (w :: rest) = checkLater c p v rest := by
  simp only [checkLater]
  rw [hax]

theorem checkLater_cons_ok (c : CryptoPrims) (p : PolyEngine)
    (v w : List SecretShare) (rest : List (List SecretShare)) (mm : List Nat)
    (hax : axRecover c p w = .ok mm) :
    checkLater c p v (w :: rest) =
      (if isSubset w v then checkLater c p v rest
       else some (ambiguousMsg w v)) := by
  simp only [checkLater]
  rw [hax]
  rfl

theorem firstExplanation_cons_ok (c : CryptoPrims) (p : PolyEngine)
    (s : List SecretShare) (rest : List (List SecretShare)) (i : Nat)
    (mm : List Nat) (hax : axRecover c p s = .ok mm) :
    firstExplanation c p (s :: rest) i = .inr (i, mm, s) := by
  unfold firstExplanation
  rw [hax]

theorem firstExplanation_cons_err (c : CryptoPrims) (p : PolyEngine)
    (s : List SecretShare) (rest : List (List SecretShare)) (i : Nat)
    (e : String) (hax : axRecover c p s = .err e) :
    firstExplanation c p (s :: rest) i =
      (match firstExplanation c p rest (i + 1) with
       | .inl none => .inl (some e)
       | .inl (some e2) => .inl (some e2)
       | .inr r => .inr r) := by
  simp only [firstExplanation]
  rw [hax]

theorem exAx_cands_err (c : CryptoPrims) (p : PolyEngine)
    (shares : List SecretShare) (e : String)
    (h : computeKPlausibleShareSets shares = .err e) :
    exAxRecover c p shares = .goError ("plausible shares: " ++ e) := by
  unfold exAxRecover
  rw [h]

theorem exAx_step (c : CryptoPrims) (p : PolyEngine)
    (shares : List SecretShare) (cands : List (List SecretShare))
    (h : computeKPlausibleShareSets shares = .ok cands) :
    exAxRecover c p shares =
      (match firstExplanation c p cands 0 with
       | .inl (some e) => .goError ("recovery: " ++ e)
       | .inl none => .goPanic "runtime error: slice bounds out of range [1:0]"
       | .inr r =>
         match checkLater c p r.2.2 (cands.drop (r.1 + 1)) with
         | some e => .goError e
         | none => .ok r.2.1 r.2.2) := by
  unfold exAxRecover
  rw [h]

theorem exAx_of_first (c : CryptoPrims) (p : PolyEngine)
    (shares : List SecretShare) (cands : List (List SecretShare))
    (idx : Nat) (mm : List Nat) (v : List SecretShare)
    (h1 : computeKPlausibleShareSets shares = .ok cands)
    (h2 : firstExplanation c p cands 0 = .inr (idx, mm, v)) :
    exAxRecover c p shares =
      (match checkLater c p v (cands.drop (idx + 1)) with
       | some e => .goError e
       | none => .ok mm v) := by
  rw [exAx_step c p shares cands h1, h2]

theorem exAx_ok (c : CryptoPrims) (p : PolyEngine)
    (shares : List SecretShare) (cands : List (List SecretShare))
    (idx : Nat) (mm : List Nat) (v : List SecretShare)
    (h1 : computeKPlausibleShareSets shares = .ok cands)
    (h2 : firstExplanation c p cands 0 = .inr (idx, mm, v))
    (h3 : checkLater c p v (cands.drop (idx + 1)) = none) :
    exAxRecover c p shares = .ok mm v := by
  rw [exAx_of_first c p shares cands idx mm v h1 h2, h3]

theorem exAx_ambiguous (c : CryptoPrims) (p : PolyEngine)
    (shares : List SecretShare) (cands : List (List SecretShare))
    (idx : Nat) (mm : List Nat) (v : List SecretShare) (e : String)
    (h1 : computeKPlausibleShareSets shares = .ok cands)
    (h2 : firstExplanation c p cands 0 = .inr (idx, mm, v))
    (h3 : checkLater c p v (cands.drop (idx + 1)) = some e) :
    exAxRecover c p shares = .goError e := by
  rw [exAx_of_first c p shares cands idx mm v h1 h2, h3]

theorem exAx_allFail (c : CryptoPrims) (p : PolyEngine)
    (shares : List SecretShare) (cands : List (List SecretShare)) (e : String)
    (h1 : computeKPlausibleShareSets shares = .ok cands)
    (h2 : firstExplanation c p cands 0 = .inl (some e)) :
    exAxRecover c p shares = .goError ("recovery: " ++ e) := by
  rw [exAx_step c p shares cands h1, h2]

theorem exAx_panic (c : CryptoPrims) (p : PolyEngine)
    (shares : List SecretShare) (cands : List (List SecretShare))
    (h1 : computeKPlausibleShareSets shares = .ok cands)
    (h2 : firstExplanation c p cands 0 = .inl none) :
    exAxRecover c p shares =
      .goPanic "runtime error: slice bounds out of range [1:0]" := by
  rw [exAx_step c p shares cands h1, h2]

/-! Recovery of an honest sharing. -/

theorem s1Recover_mkOuter (c : CryptoPrims) (p : PolyEngine) (a : AccessStructure)
    (m r t : List Nat) (h2 : 2 ≤ a.t) (htn : a.t ≤ a.n) (hn : a.n ≤ 255) :
    s1Recover p ((mkOuterShares c p a m r t).map SecretShare.toS1) =
      .ok (computeJKL c a m r t).2.1 := by
  have hK : (computeJKL c a m r t).2.1.length = 32 := shareK_length c a m r t
  rw [mkOuterShares_toS1]
  have hrange := s1Recover_range p a
    (s1Sec c p a (computeJKL c a m r t).2.1 (computeJKL c a m r t).2.2 [])
    32 (by omega) htn hn
    (fun j => by rw [s1Sec_length, hK])
    (s1Coeffs c a (computeJKL c a m r t).2.1 (computeJKL c a m r t).2.2 [])
    (fun i => s1Coeffs_ne_nil _ _ _ _ _ _)
    (fun i hi => s1Coeffs_lt _ _ _ _ _ _
      (fun b hb => c.sha256_lt _ b hb) (by rw [hK]; exact hi))
    (fun i => s1Coeffs_length _ _ _ _ _ _ (by omega) (by omega))
    (fun j i hi => s1Sec_getD _ _ _ _ _ _ _ (by rw [hK]; exact hi))
  rw [hrange]
  refine congrArg GoExcept.ok ?_
  simp only [s1Coeffs, List.headD_cons]
  conv_lhs => rw [show (32 : Nat) = (computeJKL c a m r t).2.1.length from hK.symm]
  exact getD_range_map _ 0

theorem axRecover_of_reshare (c : CryptoPrims) (p : PolyEngine)
    (share0 : SecretShare) (tail : List SecretShare) (k mm rr : List Nat)
    (reshares : List SecretShare)
    (hs1 : s1Recover p ((share0 :: tail).map SecretShare.toS1) = .ok k)
    (hxor : xorKeyStreamTwoInputs c k share0.pubC share0.pubD = .ok (mm, rr))
    (hJ : (computeJKL c share0.as mm rr share0.tag).1 = share0.pubJ)
    (hK2 : (computeJKL c share0.as mm rr share0.tag).2.1 = k)
    (hre : internalShare c p share0.as mm rr share0.tag = .ok reshares) :
    axRecover c p (share0 :: tail) =
      (if isSubset (share0 :: tail) reshares then .ok mm
       else .err "not a subset of resharing") := by
  rw [axRecover_of_xor c p share0 tail k mm rr hs1 hxor, if_pos (And.intro hJ hK2),
    if_pos (show share0.as.isSupportedIDSet
      ((share0 :: tail).map SecretShare.id) = true from rfl), hre]

theorem axRecover_mkOuter (c : CryptoPrims) (p : PolyEngine) (a : AccessStructure)
    (m r t : List Nat) (h2 : 2 ≤ a.t) (htn : a.t ≤ a.n) (hn : a.n ≤ 255) :
    axRecover c p (mkOuterShares c p a m r t) = .ok m := by
  obtain ⟨n2, hn2⟩ : ∃ n2, a.n = n2 + 1 := ⟨a.n - 1, by omega⟩
  have hcons : mkOuterShares c p a m r t =
      outerShare c p a m r t 0 ::
        (List.range' 1 n2).map (outerShare c p a m r t) := by
    rw [mkOuterShares, List.range_eq_range', hn2, List.range'_succ]
    simp
  have hs1 := s1Recover_mkOuter c p a m r t h2 htn hn
  rw [hcons] at hs1
  have hD : xorKS (c.ks (computeJKL c a m r t).2.1 iv1)
      (outerShare c p a m r t 0).pubD = r := by
    show xorKS _ (xorKS (c.ks (computeJKL c a m r t).2.1 iv1) r) = r
    exact xorKS_invol _ r
  have hC : xorKS (c.ks (computeJKL c a m r t).2.1 iv0)
      (outerShare c p a m r t 0).pubC = m := by
    show xorKS _ (xorKS (c.ks (computeJKL c a m r t).2.1 iv0) m) = m
    exact xorKS_invol _ m
  have hxor : xorKeyStreamTwoInputs c (computeJKL c a m r t).2.1
      (outerShare c p a m r t 0).pubC (outerShare c p a m r t 0).pubD =
      .ok (m, r) := by
    unfold xorKeyStreamTwoInputs
    rw [if_pos (Or.inr (Or.inr (shareK_length c a m r t))), hC, hD]
  have hsub : isSubset (outerShare c p a m r t 0 ::
      (List.range' 1 n2).map (outerShare c p a m r t))
      (mkOuterShares c p a m r t) = true := by
    rw [← hcons]
    exact isSubset_of_sub (le_refl _) (fun x hx => hx)
  rw [hcons, axRecover_of_reshare c p _ _ _ m r (mkOuterShares c p a m r t)
    hs1 hxor rfl rfl (internalShare_ok c p a m r t), if_pos hsub]

theorem computeK_mkOuter (c : CryptoPrims) (p : PolyEngine) (a : AccessStructure)
    (m r t : List Nat) (h2 : 2 ≤ a.t) (htn : a.t ≤ a.n) (hn : a.n ≤ 255) :
    computeKPlausibleShareSets (mkOuterShares c p a m r t) =
      .ok (((List.range' a.t (a.n + 1 - a.t)).reverse).flatMap
        fun k => kSubsets k (mkOuterShares c p a m r t)) := by
  obtain ⟨n2, hn2⟩ : ∃ n2, a.n = n2 + 1 := ⟨a.n - 1, by omega⟩
  have hcons : mkOuterShares c p a m r t =
      outerShare c p a m r t 0 ::
        (List.range' 1 n2).map (outerShare c p a m r t) := by
    rw [mkOuterShares, List.range_eq_range', hn2, List.range'_succ]
    simp
  have hval : validateShares (outerShare c p a m r t 0).as
      (outerShare c p a m r t 0).tag
      ((List.range' 1 n2).map (outerShare c p a m r t))
      [(outerShare c p a m r t 0).id] = none := by
    refine validateShares_none _ _ _ _ ?_ ?_ ?_ ?_
    · intro s hs
      obtain ⟨j, _, rfl⟩ := List.mem_map.1 hs
      rfl
    · intro s hs
      obtain ⟨j, _, rfl⟩ := List.mem_map.1 hs
      rfl
    · have : ((List.range' 1 n2).map (outerShare c p a m r t)).map
          SecretShare.id = List.range' 1 n2 := by
        rw [List.map_map]
        exact List.map_id _
      rw [this]
      exact ((List.pairwise_lt_range' 1 n2).imp Nat.ne_of_lt)
    · intro s hs
      obtain ⟨j, hj, rfl⟩ := List.mem_map.1 hs
      obtain ⟨i, _, rfl⟩ := List.mem_range'.1 hj
      show 1 + 1 * i ∉ [(0 : Nat)]
      simp
  conv_lhs => rw [hcons]
  simp only [computeKPlausibleShareSets]
  rw [hval]
  show GoExcept.ok _ = _
  rw [← hcons]
  refine congrArg GoExcept.ok ?_
  have hlen : (mkOuterShares c p a m r t).length = a.n :=
    mkOuterShares_length c p a m r t
  rw [show (outerShare c p a m r t 0).as.t = a.t from rfl, hlen]

theorem flatMap_kSubsets_sub {shares : List SecretShare} {tv cnt : Nat}
    (h1 : 1 ≤ tv) (hcnt : tv + cnt ≤ shares.length + 1) {w : List SecretShare}
    (hw : w ∈ ((List.range' tv cnt).reverse).flatMap fun k => kSubsets k shares) :
    isSubset w shares = true := by
  rw [List.mem_flatMap] at hw
  obtain ⟨k, hk, hwk⟩ := hw
  rw [List.mem_reverse] at hk
  obtain ⟨i, hi, rfl⟩ := List.mem_range'.1 hk
  have hk1 : 1 ≤ tv + 1 * i := by omega
  have hkLen : tv + 1 * i ≤ shares.length := by omega
  exact isSubset_of_sub (by rw [kSubsets_mem_length hwk hk1]; exact hkLen)
    (kSubsets_mem_mem hwk)

theorem checkLater_none_of_sub (c : CryptoPrims) (p : PolyEngine)
    (v : List SecretShare) :
    ∀ lst : List (List SecretShare),
      (∀ w ∈ lst, isSubset w v = true) → checkLater c p v lst = none := by
  intro lst
  induction lst with
  | nil => intro _; rfl
  | cons w rest ih =>
    intro h
    cases hax : axRecover c p w with
    | err e =>
      rw [checkLater_cons_err c p v w rest e hax]
      exact ih fun x hx => h x (List.mem_cons_of_mem w hx)
    | ok mm =>
      rw [checkLater_cons_ok c p v w rest mm hax,
        if_pos (h w (List.mem_cons_self w rest))]
      exact ih fun x hx => h x (List.mem_cons_of_mem w hx)

theorem cands_mkOuter_shape (c : CryptoPrims) (p : PolyEngine)
    (a : AccessStructure) (m r t : List Nat)
    (_h2 : 2 ≤ a.t) (htn : a.t ≤ a.n) (_hn : a.n ≤ 255) :
    ((List.range' a.t (a.n + 1 - a.t)).reverse).flatMap
        (fun k => kSubsets k (mkOuterShares c p a m r t)) =
      mkOuterShares c p a m r t ::
        ((List.range' a.t (a.n - a.t)).reverse).flatMap
          (fun k => kSubsets k (mkOuterShares c p a m r t)) := by
  rw [sizesDesc_eq htn, List.flatMap_cons]
  have hself : kSubsets a.n (mkOuterShares c p a m r t) =
      [mkOuterShares c p a m r t] := by
    conv_lhs => rw [show a.n = (mkOuterShares c p a m r t).length from
      (mkOuterShares_length c p a m r t).symm]
    exact kSubsets_self _
  rw [hself]
  rfl

/-- C1: for every access structure with 2 <= t <= n (n a uint8 value),
every message (including the empty one), every associated data and every
randomness, sharing succeeds and Recover on the full returned share list
returns the original message together with all n shares. -/
theorem claim1_round_trip (c : CryptoPrims) (p : PolyEngine)
    (a : AccessStructure) (m t r : List Nat)
    (h2 : 2 ≤ a.t) (htn : a.t ≤ a.n) (hn : a.n ≤ 255) :
    ∃ shares, Share c p a m t r = .ok shares ∧
      Recover c p shares = .ok m shares := by
  refine ⟨mkOuterShares c p a m r t, internalShare_ok c p a m r t, ?_⟩
  show exAxRecover c p _ = _
  refine exAx_ok c p _ _ 0 m (mkOuterShares c p a m r t)
    (computeK_mkOuter c p a m r t h2 htn hn) ?_ ?_
  · rw [cands_mkOuter_shape c p a m r t h2 htn hn]
    exact firstExplanation_cons_ok c p _ _ 0 m
      (axRecover_mkOuter c p a m r t h2 htn hn)
  · rw [cands_mkOuter_shape c p a m r t h2 htn hn]
    show checkLater c p _ (List.drop 1 (_ :: _)) = none
    rw [List.drop_one, List.tail_cons]
    refine checkLater_none_of_sub c p _ _ ?_
    intro w hw
    refine flatMap_kSubsets_sub (by omega) ?_ hw
    rw [mkOuterShares_length]
    omega

/-! Claims about validation, the integrity gates and share fields. -/

theorem computeK_ok_inv (s0 : SecretShare) (rest : List SecretShare)
    (cands : List (List SecretShare))
    (h : computeKPlausibleShareSets (s0 :: rest) = .ok cands) :
    cands = ((List.range' s0.as.t ((s0 :: rest).length + 1 - s0.as.t)).reverse).flatMap
      (fun k => kSubsets k (s0 :: rest)) := by
  simp only [computeKPlausibleShareSets] at h
  cases hv : validateShares s0.as s0.tag rest [s0.id] with
  | some e =>
    rw [hv] at h
    exact absurd h (by simp)
  | none =>
    rw [hv] at h
    injection h with h
    exact h.symm

/-- C2 (code bug): a pool that passes consistency validation but holds fewer
than t shares produces an empty candidate list, after which the Go code
keeps the nil error, skips the error return and slices allShareSets[1:] of
an empty slice: Recover panics instead of returning the
NoExplanationFound-style wrapped error the claim describes. -/
theorem claim2_insufficient_pool_panics (c : CryptoPrims) (p : PolyEngine)
    (s0 : SecretShare) (rest : List SecretShare)
    (cands : List (List SecretShare))
    (hok : computeKPlausibleShareSets (s0 :: rest) = .ok cands)
    (hlt : (s0 :: rest).length < s0.as.t) :
    Recover c p (s0 :: rest) =
      .goPanic "runtime error: slice bounds out of range [1:0]" := by
  have hc := computeK_ok_inv s0 rest cands hok
  have hz : (s0 :: rest).length + 1 - s0.as.t = 0 := by omega
  rw [hz] at hc
  simp only [List.range'_zero, List.reverse_nil, List.flatMap_nil] at hc
  subst hc
  exact exAx_panic c p _ [] hok rfl

/-- C9 (amended): every share secret produced by internalShare has length
32, the length of the split key K (a SHA-256 digest), independent of the
message length; it equals the message length only for 32-byte messages. -/
theorem claim9_secret_is_key_length (c : CryptoPrims) (p : PolyEngine)
    (a : AccessStructure) (m r t : List Nat) :
    ∀ shares, internalShare c p a m r t = .ok shares →
      ∀ s ∈ shares, s.sec.length = 32 := by
  intro shares hok s hs
  rw [internalShare_ok] at hok
  injection hok with hok
  subst hok
  obtain ⟨j, _, rfl⟩ := List.mem_map.1 hs
  show (s1Sec c p a (computeJKL c a m r t).2.1
    (computeJKL c a m r t).2.2 [] j).length = 32
  rw [s1Sec_length]
  exact shareK_length c a m r t

/-- C9 counterexample: for the one-byte message [7] each share secret has
32 bytes, not 1, so the secret is not the same length as the message. -/
theorem claim9_counterexample : ∃ shares,
    internalShare sumCrypto headProjEngine wA22 wMsg wRand [] = .ok shares ∧
    ∃ s ∈ shares, s.sec.length ≠ wMsg.length := by
  refine ⟨_, internalShare_ok _ _ _ _ _ _, ?_⟩
  decide

/-- C10: internalShare returns exactly n shares, the share at position i
has id i (so the ids are exactly 0..n-1), every share has access structure
a, tag t and a 64-byte J, and the public fields C, D, J and the tag are
identical across all returned shares. -/
theorem claim10_share_fields (c : CryptoPrims) (p : PolyEngine)
    (a : AccessStructure) (m r t : List Nat) :
    ∀ shares, internalShare c p a m r t = .ok shares →
      shares.length = a.n ∧
      shares.map SecretShare.id = List.range a.n ∧
      (∀ s ∈ shares, s.pubJ.length = 64 ∧ s.as = a ∧ s.tag = t) ∧
      (∀ s ∈ shares, ∀ s2 ∈ shares,
        s.pubC = s2.pubC ∧ s.pubD = s2.pubD ∧ s.pubJ = s2.pubJ ∧
          s.tag = s2.tag) := by
  intro shares hok
  rw [internalShare_ok] at hok
  injection hok with hok
  subst hok
  refine ⟨mkOuterShares_length c p a m r t, mkOuterShares_map_id c p a m r t,
    ?_, ?_⟩
  · intro s hs
    obtain ⟨j, _, rfl⟩ := List.mem_map.1 hs
    exact ⟨shareJ_length c a m r t, rfl, rfl⟩
  · intro s hs s2 hs2
    obtain ⟨j, _, rfl⟩ := List.mem_map.1 hs
    obtain ⟨j2, _, rfl⟩ := List.mem_map.1 hs2
    exact ⟨rfl, rfl, rfl, rfl⟩

/-- C4 (amended): the base layer split is called with K as the split secret
and L as the PRF seed, so the share secrets and ids depend on the inputs
only through the access structure and the digests K and L; in particular L
is consumed by the sharing flow as the base layer seed, not reserved. -/
theorem claim4_base_split_seeded_with_L (c : CryptoPrims) (p : PolyEngine)
    (a : AccessStructure) (m m2 r r2 t t2 : List Nat)
    (hK : (computeJKL c a m r t).2.1 = (computeJKL c a m2 r2 t2).2.1)
    (hL : (computeJKL c a m r t).2.2 = (computeJKL c a m2 r2 t2).2.2) :
    ∀ sh sh2, internalShare c p a m r t = .ok sh →
      internalShare c p a m2 r2 t2 = .ok sh2 →
      sh.map SecretShare.sec = sh2.map SecretShare.sec ∧
      sh.map SecretShare.id = sh2.map SecretShare.id := by
  intro sh sh2 h1 h2
  rw [internalShare_ok] at h1 h2
  injection h1 with h1
  injection h2 with h2
  subst h1
  subst h2
  constructor
  · simp only [mkOuterShares, List.map_map]
    refine List.map_congr_left ?_
    intro j _
    show s1Sec c p a (computeJKL c a m r t).2.1
        (computeJKL c a m r t).2.2 [] j =
      s1Sec c p a (computeJKL c a m2 r2 t2).2.1
        (computeJKL c a m2 r2 t2).2.2 [] j
    rw [hK, hL]
  · rw [mkOuterShares_map_id, mkOuterShares_map_id]

/-- C4 counterexample: the sharing step as the spec words it, with the
base layer seeded by the randomness R, produces different shares than the
code, which seeds the base layer with the digest L. -/
theorem claim4_counterexample :
    internalShareSpecSeedR sumCrypto headProjEngine wA22 [1] wRand [] ≠
      internalShare sumCrypto headProjEngine wA22 [1] wRand [] := by
  decide

/-- C7: an empty pool, a pool with two different access structures, a pool
with two different tags and a pool with a repeated id each make Recover
fail immediately with the corresponding named validation error, wrapped as
a plausible-shares error before any recovery attempt. -/
theorem claim7_pool_validation (c : CryptoPrims) (p : PolyEngine) :
    (Recover c p [] = .goError "plausible shares: no shares provided") ∧
    (∀ (s0 : SecretShare) (rest : List SecretShare),
      (∀ x ∈ s0 :: rest, x.tag = s0.tag) →
      ((s0 :: rest).map SecretShare.id).Nodup →
      (∃ x ∈ s0 :: rest, ∃ y ∈ s0 :: rest, x.as ≠ y.as) →
      Recover c p (s0 :: rest) =
        .goError "plausible shares: shares have inconsistent access structures") ∧
    (∀ (s0 : SecretShare) (rest : List SecretShare),
      (∀ x ∈ s0 :: rest, x.as = s0.as) →
      ((s0 :: rest).map SecretShare.id).Nodup →
      (∃ x ∈ s0 :: rest, ∃ y ∈ s0 :: rest, x.tag ≠ y.tag) →
      Recover c p (s0 :: rest) =
        .goError "plausible shares: shares have inconsistent tags") ∧
    (∀ (s0 : SecretShare) (rest : List SecretShare),
      (∀ x ∈ s0 :: rest, x.as = s0.as) →
      (∀ x ∈ s0 :: rest, x.tag = s0.tag) →
      ¬ ((s0 :: rest).map SecretShare.id).Nodup →
      Recover c p (s0 :: rest) =
        .goError "plausible shares: duplicate share ID found") := by
  refine ⟨exAx_cands_err c p [] _ rfl, ?_, ?_, ?_⟩
  · intro s0 rest hTag hNd hEx
    have hTag2 : ∀ x ∈ rest, x.tag = s0.tag :=
      fun x hx => hTag x (List.mem_cons_of_mem s0 hx)
    simp only [List.map_cons, List.nodup_cons] at hNd
    have hSeen : ∀ x ∈ rest, x.id ∉ [s0.id] := by
      intro x hx
      simp only [List.mem_singleton]
      intro hEq
      exact hNd.1 (hEq ▸ List.mem_map_of_mem SecretShare.id hx)
    have hEx2 : ∃ x ∈ rest, x.as ≠ s0.as := by
      obtain ⟨x, hx, y, hy, hxy⟩ := hEx
      by_cases hxs : x.as = s0.as
      · have hys : y.as ≠ s0.as := fun hys => hxy (hxs.trans hys.symm)
        rcases List.mem_cons.1 hy with rfl | hy2
        · exact absurd rfl hys
        · exact ⟨y, hy2, hys⟩
      · rcases List.mem_cons.1 hx with rfl | hx2
        · exact absurd rfl hxs
        · exact ⟨x, hx2, hxs⟩
    have hcomp : computeKPlausibleShareSets (s0 :: rest) =
        .err "shares have inconsistent access structures" := by
      simp only [computeKPlausibleShareSets]
      rw [validateShares_as s0.as s0.tag rest [s0.id] hEx2 hTag2 hNd.2 hSeen]
    exact exAx_cands_err c p _ _ hcomp
  · intro s0 rest hAs hNd hEx
    have hAs2 : ∀ x ∈ rest, x.as = s0.as :=
      fun x hx => hAs x (List.mem_cons_of_mem s0 hx)
    simp only [List.map_cons, List.nodup_cons] at hNd
    have hSeen : ∀ x ∈ rest, x.id ∉ [s0.id] := by
      intro x hx
      simp only [List.mem_singleton]
      intro hEq
      exact hNd.1 (hEq ▸ List.mem_map_of_mem SecretShare.id hx)
    have hEx2 : ∃ x ∈ rest, x.tag ≠ s0.tag := by
      obtain ⟨x, hx, y, hy, hxy⟩ := hEx
      by_cases hxs : x.tag = s0.tag
      · have hys : y.tag ≠ s0.tag := fun hys => hxy (hxs.trans hys.symm)
        rcases List.mem_cons.1 hy with rfl | hy2
        · exact absurd rfl hys
        · exact ⟨y, hy2, hys⟩
      · rcases List.mem_cons.1 hx with rfl | hx2
        · exact absurd rfl hxs
        · exact ⟨x, hx2, hxs⟩
    have hcomp : computeKPlausibleShareSets (s0 :: rest) =
        .err "shares have inconsistent tags" := by
      simp only [computeKPlausibleShareSets]
      rw [validateShares_tag s0.as s0.tag rest [s0.id] hAs2 hEx2 hNd.2 hSeen]
    exact exAx_cands_err c p _ _ hcomp
  · intro s0 rest hAs hTag hNd
    have hAs2 : ∀ x ∈ rest, x.as = s0.as :=
      fun x hx => hAs x (List.mem_cons_of_mem s0 hx)
    have hTag2 : ∀ x ∈ rest, x.tag = s0.tag :=
      fun x hx => hTag x (List.mem_cons_of_mem s0 hx)
    have hBad : ¬ ([s0.id] ++ rest.map SecretShare.id).Nodup := by
      simpa using hNd
    have hcomp : computeKPlausibleShareSets (s0 :: rest) =
        .err "duplicate share ID found" := by
      simp only [computeKPlausibleShareSets]
      rw [validateShares_dup s0.as s0.tag rest [s0.id] hAs2 hTag2 hBad
        (by simp)]
    exact exAx_cands_err c p _ _ hcomp

/-- C6: when a candidate subset recombines and decrypts, axRecover fails
with the checksum error exactly when the recomputed J or K digest differs;
with matching digests it fails with the not-a-reshare error exactly when
the input subset is not byte-contained in the reshared output, and
otherwise returns the decrypted message. -/
theorem claim6_integrity_gates (c : CryptoPrims) (p : PolyEngine)
    (share0 : SecretShare) (tail : List SecretShare) (k mm rr : List Nat)
    (hs1 : s1Recover p ((share0 :: tail).map SecretShare.toS1) = .ok k)
    (hxor : xorKeyStreamTwoInputs c k share0.pubC share0.pubD = .ok (mm, rr)) :
    (((computeJKL c share0.as mm rr share0.tag).1 ≠ share0.pubJ ∨
        (computeJKL c share0.as mm rr share0.tag).2.1 ≠ k) →
      axRecover c p (share0 :: tail) = .err "checksum failed") ∧
    (∀ reshares,
      (computeJKL c share0.as mm rr share0.tag).1 = share0.pubJ →
      (computeJKL c share0.as mm rr share0.tag).2.1 = k →
      internalShare c p share0.as mm rr share0.tag = .ok reshares →
      (isSubset (share0 :: tail) reshares = false →
        axRecover c p (share0 :: tail) = .err "not a subset of resharing") ∧
      (isSubset (share0 :: tail) reshares = true →
        axRecover c p (share0 :: tail) = .ok mm)) := by
  constructor
  · intro hBad
    rw [axRecover_of_xor c p share0 tail k mm rr hs1 hxor]
    rw [if_neg (by tauto)]
  · intro reshares hJ hK hre
    constructor
    · intro hSub
      rw [axRecover_of_reshare c p share0 tail k mm rr reshares hs1 hxor hJ hK
        hre]
      rw [if_neg (by simp [hSub])]
    · intro hSub
      rw [axRecover_of_reshare c p share0 tail k mm rr reshares hs1 hxor hJ hK
        hre]
      rw [if_pos hSub]

/-! Candidate ordering: largest subsets first. -/

theorem pairwise_len_flatMap (pool : List SecretShare) {tv : Nat} (h1 : 1 ≤ tv) :
    ∀ cnt, List.Pairwise (fun x y => y.length ≤ x.length)
      (((List.range' tv cnt).reverse).flatMap fun k => kSubsets k pool) := by
  intro cnt
  induction cnt with
  | zero => simp
  | succ n ih =>
    rw [List.range'_concat, List.reverse_append]
    simp only [List.reverse_cons, List.reverse_nil, List.nil_append,
      List.singleton_append]
    rw [List.flatMap_cons, List.pairwise_append]
    refine ⟨?_, ih, ?_⟩
    · refine List.pairwise_of_forall_mem_list ?_
      intro x hx y hy
      rw [kSubsets_mem_length hx (by omega), kSubsets_mem_length hy (by omega)]
    · intro x hx y hy
      rw [List.mem_flatMap] at hy
      obtain ⟨k2, hk2, hyk⟩ := hy
      rw [List.mem_reverse] at hk2
      obtain ⟨i, hi, rfl⟩ := List.mem_range'.1 hk2
      rw [kSubsets_mem_length hx (by omega), kSubsets_mem_length hyk (by omega)]
      omega

/-- C8: for every validated pool the candidate subsets are ordered largest
first (pairwise non-increasing lengths) with the full pool as the single
first candidate, and for an honest complete sharing the first axRecover
attempt, on the full pool, is the accepted explanation. -/
theorem claim8_largest_first (c : CryptoPrims) (p : PolyEngine) :
    (∀ (s0 : SecretShare) (rest : List SecretShare)
        (cands : List (List SecretShare)),
      computeKPlausibleShareSets (s0 :: rest) = .ok cands →
      1 ≤ s0.as.t →
      (s0.as.t ≤ (s0 :: rest).length → cands.head? = some (s0 :: rest)) ∧
      List.Pairwise (fun x y => y.length ≤ x.length) cands) ∧
    (∀ (a : AccessStructure) (m t r : List Nat),
      2 ≤ a.t → a.t ≤ a.n → a.n ≤ 255 →
      ∀ shares, internalShare c p a m r t = .ok shares →
      ∃ cands, computeKPlausibleShareSets shares = .ok cands ∧
        firstExplanation c p cands 0 = .inr (0, m, shares)) := by
  constructor
  · intro s0 rest cands hok h1
    have hc := computeK_ok_inv s0 rest cands hok
    constructor
    · intro hle
      rw [hc, sizesDesc_eq hle, List.flatMap_cons]
      conv_lhs =>
        rw [show kSubsets (s0 :: rest).length (s0 :: rest) = [s0 :: rest] from
          kSubsets_self (s0 :: rest)]
      rfl
    · rw [hc]
      exact pairwise_len_flatMap (s0 :: rest) h1 _
  · intro a m t r h2 htn hn shares hok
    rw [internalShare_ok] at hok
    injection hok with hok
    subst hok
    refine ⟨_, computeK_mkOuter c p a m r t h2 htn hn, ?_⟩
    rw [cands_mkOuter_shape c p a m r t h2 htn hn]
    exact firstExplanation_cons_ok c p _ _ 0 m
      (axRecover_mkOuter c p a m r t h2 htn hn)

/-! First-explanation search and the uniqueness check. -/

theorem firstExplanation_of (c : CryptoPrims) (p : PolyEngine) :
    ∀ (cands : List (List SecretShare)) (i0 idx : Nat)
      (v : List SecretShare) (mm : List Nat),
      cands[idx]? = some v →
      (∀ i, i < idx → isErr (axRecover c p (cands.getD i [])) = true) →
      axRecover c p v = .ok mm →
      firstExplanation c p cands i0 = .inr (i0 + idx, mm, v) := by
  intro cands
  induction cands with
  | nil =>
    intro i0 idx v mm hv
    simp at hv
  | cons s rest ih =>
    intro i0 idx v mm hv hfail hok
    cases idx with
    | zero =>
      rw [List.getElem?_cons_zero] at hv
      injection hv with hv
      subst hv
      rw [firstExplanation_cons_ok c p s rest i0 mm hok]
      rfl
    | succ idx2 =>
      have h0 := hfail 0 (by omega)
      rw [show (s :: rest).getD 0 [] = s from rfl] at h0
      cases hax : axRecover c p s with
      | ok mm0 => rw [hax] at h0; simp [isErr] at h0
      | err e =>
        rw [firstExplanation_cons_err c p s rest i0 e hax]
        have hrec := ih (i0 + 1) idx2 v mm (by simpa using hv)
          (fun i hi => by
            have := hfail (i + 1) (by omega)
            simpa [List.getD_cons_succ] using this) hok
        rw [show i0 + 1 + idx2 = i0 + (idx2 + 1) from by omega] at hrec
        rw [hrec]

theorem checkLater_none_of_ok_sub (c : CryptoPrims) (p : PolyEngine)
    (v : List SecretShare) :
    ∀ lst : List (List SecretShare),
      (∀ w ∈ lst, isErr (axRecover c p w) = false → isSubset w v = true) →
      checkLater c p v lst = none := by
  intro lst
  induction lst with
  | nil => intro _; rfl
  | cons w rest ih =>
    intro h
    cases hax : axRecover c p w with
    | err e =>
      rw [checkLater_cons_err c p v w rest e hax]
      exact ih fun x hx hx2 => h x (List.mem_cons_of_mem w hx) hx2
    | ok mm =>
      rw [checkLater_cons_ok c p v w rest mm hax,
        if_pos (h w (List.mem_cons_self w rest) (by rw [hax]; rfl))]
      exact ih fun x hx hx2 => h x (List.mem_cons_of_mem w hx) hx2

theorem checkLater_finds (c : CryptoPrims) (p : PolyEngine)
    (v : List SecretShare) :
    ∀ lst : List (List SecretShare),
      (∃ w ∈ lst, isErr (axRecover c p w) = false ∧ isSubset w v = false) →
      ∃ w ∈ lst, isErr (axRecover c p w) = false ∧ isSubset w v = false ∧
        checkLater c p v lst = some (ambiguousMsg w v) := by
  intro lst
  induction lst with
  | nil => intro h; exact absurd h (by simp)
  | cons w rest ih =>
    intro hEx
    cases hax : axRecover c p w with
    | err e =>
      obtain ⟨w2, hw2, hwE, hwS⟩ := hEx
      have hw2r : w2 ∈ rest := by
        rcases List.mem_cons.1 hw2 with rfl | h
        · rw [hax] at hwE; simp [isErr] at hwE
        · exact h
      obtain ⟨w3, hw3, h3E, h3S, h3⟩ := ih ⟨w2, hw2r, hwE, hwS⟩
      exact ⟨w3, List.mem_cons_of_mem w hw3, h3E, h3S,
        by rw [checkLater_cons_err c p v w rest e hax]; exact h3⟩
    | ok mm =>
      by_cases hsub : isSubset w v = true
      · obtain ⟨w2, hw2, hwE, hwS⟩ := hEx
        have hw2r : w2 ∈ rest := by
          rcases List.mem_cons.1 hw2 with rfl | h
          · rw [hsub] at hwS; cases hwS
          · exact h
        obtain ⟨w3, hw3, h3E, h3S, h3⟩ := ih ⟨w2, hw2r, hwE, hwS⟩
        refine ⟨w3, List.mem_cons_of_mem w hw3, h3E, h3S, ?_⟩
        rw [checkLater_cons_ok c p v w rest mm hax, if_pos hsub]
        exact h3
      · refine ⟨w, List.mem_cons_self w rest, by rw [hax]; rfl,
          by simpa using hsub, ?_⟩
        rw [checkLater_cons_ok c p v w rest mm hax,
          if_neg hsub]

/-- C5: once the first successful candidate V is found at position idx,
a later candidate that also recovers and is not a subset of V makes
Recover fail with the multiple-explanations (ambiguity) error, while later
successful candidates that are subsets of V leave the result as the
message recovered from V together with V itself. -/
theorem claim5_ambiguity (c : CryptoPrims) (p : PolyEngine)
    (pool : List SecretShare) (cands : List (List SecretShare))
    (idx : Nat) (mm : List Nat) (v : List SecretShare)
    (hcands : computeKPlausibleShareSets pool = .ok cands)
    (hv : cands[idx]? = some v)
    (hfail : ∀ i, i < idx → isErr (axRecover c p (cands.getD i [])) = true)
    (hok : axRecover c p v = .ok mm) :
    ((∃ w ∈ cands.drop (idx + 1),
        isErr (axRecover c p w) = false ∧ isSubset w v = false) →
      ∃ w ∈ cands.drop (idx + 1), isSubset w v = false ∧
        exAxRecover c p pool = .goError (ambiguousMsg w v)) ∧
    ((∀ w ∈ cands.drop (idx + 1),
        isErr (axRecover c p w) = false → isSubset w v = true) →
      exAxRecover c p pool = .ok mm v) := by
  have hfe := firstExplanation_of c p cands 0 idx v mm hv hfail hok
  rw [Nat.zero_add] at hfe
  constructor
  · intro hEx
    obtain ⟨w, hw, _, hwS, hcl⟩ := checkLater_finds c p v _ hEx
    exact ⟨w, hw, hwS, exAx_ambiguous c p pool cands idx mm v _ hcands hfe hcl⟩
  · intro hAll
    exact exAx_ok c p pool cands idx mm v hcands hfe
      (checkLater_none_of_ok_sub c p v _ hAll)

/-! Exact shape of the subset enumeration. -/

theorem drop_range (m n : Nat) :
    List.drop m (List.range n) = List.range' m (n - m) := by
  apply List.ext_getElem
  · simp
  · intro i h1 h2
    rw [List.getElem_drop, List.getElem_range, List.getElem_range']
    omega

theorem takeWhile_window (k len : Nat) :
    ∀ (cnt s : Nat),
      (List.range' s cnt).takeWhile (fun j => decide (j + k - 1 ≤ len)) =
        List.range' s (min cnt (len + 2 - k - s)) := by
  intro cnt
  induction cnt with
  | zero => intro s; simp
  | succ n ih =>
    intro s
    rw [List.range'_succ, List.takeWhile_cons]
    by_cases hs : s + k - 1 ≤ len
    · rw [if_pos (by simpa using hs)]
      rw [ih (s + 1)]
      rw [show min (n + 1) (len + 2 - k - s) =
        min n (len + 2 - k - (s + 1)) + 1 from by omega]
      rw [List.range'_succ]
    · rw [if_neg (by simpa using hs)]
      rw [show min (n + 1) (len + 2 - k - s) = 0 from by omega]
      rfl

theorem sum_map_add_one (l : List Nat) (f : Nat → Nat) :
    (l.map (fun i => f i + 1)).sum = (l.map f).sum + l.length := by
  induction l with
  | nil => rfl
  | cons a tl ih =>
    simp only [List.map_cons, List.sum_cons, List.length_cons, ih]
    omega

theorem gauss_exact (B : Nat) :
    ((List.range (B + 1)).map (fun i => B - i)).sum * 2 = B * (B + 1) := by
  induction B with
  | zero => rfl
  | succ b ih =>
    rw [show b + 1 + 1 = (b + 1) + 1 from rfl, List.range_succ,
      List.map_append, List.sum_append]
    simp only [List.map_cons, List.map_nil, List.sum_cons, List.sum_nil]
    rw [show b + 1 - (b + 1) = 0 from by omega]
    have hpt : (List.range (b + 1)).map (fun i => b + 1 - i) =
        (List.range (b + 1)).map (fun i => (b - i) + 1) := by
      refine List.map_congr_left ?_
      intro i hi
      have : i < b + 1 := List.mem_range.1 hi
      omega
    rw [hpt, sum_map_add_one, List.length_range]
    set S := ((List.range (b + 1)).map (fun i => b - i)).sum with hS
    calc (S + (b + 1) + (0 + 0)) * 2 = S * 2 + (b + 1) * 2 := by ring
      _ = b * (b + 1) + (b + 1) * 2 := by rw [ih]
      _ = (b + 1) * (b + 1 + 1) := by ring

theorem gauss_pad (B : Nat) :
    ∀ d, ((List.range (B + 1 + d)).map (fun i => B - i)).sum =
      ((List.range (B + 1)).map (fun i => B - i)).sum := by
  intro d
  induction d with
  | zero => rfl
  | succ e ih =>
    rw [show B + 1 + (e + 1) = (B + 1 + e) + 1 from by omega, List.range_succ,
      List.map_append, List.sum_append]
    simp only [List.map_cons, List.map_nil, List.sum_cons, List.sum_nil]
    rw [show B - (B + 1 + e) = 0 from by omega]
    simpa using ih

theorem sum_range_sub (B len : Nat) (h : B < len) :
    ((List.range len).map (fun i => B - i)).sum = B * (B + 1) / 2 := by
  rw [show len = B + 1 + (len - B - 1) from by omega, gauss_pad B (len - B - 1)]
  rw [← gauss_exact B, Nat.mul_div_cancel _ (by norm_num)]

theorem kSubsets_length (k : Nat) (l : List SecretShare)
    (h2 : 2 ≤ k) (hkm : k ≤ l.length) :
    (kSubsets k l).length = (l.length - k + 1) * (l.length - k + 2) / 2 := by
  by_cases hkl : k = l.length
  · subst hkl
    rw [kSubsets_self]
    rw [show l.length - l.length + 1 = 1 from by omega,
      show l.length - l.length + 2 = 2 from by omega]
    rfl
  · unfold kSubsets
    rw [if_neg hkl, List.length_flatMap]
    have hmap : (List.range l.length).map
        (List.length ∘ fun i =>
          (((List.range l.length).drop (i + 1)).takeWhile
              fun j => decide (j + k - 1 ≤ l.length)).map fun j =>
            l.getD i default ::
              (List.range (k - 1)).map fun o => l.getD (j + o) default) =
        (List.range l.length).map (fun i => l.length - k + 1 - i) := by
      refine List.map_congr_left ?_
      intro i hi
      have hiLt : i < l.length := List.mem_range.1 hi
      show (((((List.range l.length).drop (i + 1)).takeWhile
        fun j => decide (j + k - 1 ≤ l.length)).map fun j =>
          l.getD i default ::
            (List.range (k - 1)).map fun o => l.getD (j + o) default)).length = _
      rw [List.length_map, drop_range, takeWhile_window k l.length,
        List.length_range']
      omega
    rw [hmap, sum_range_sub (l.length - k + 1) l.length (by omega),
      show l.length - k + 1 + 1 = l.length - k + 2 from by omega]

theorem map_getD_window (l : List SecretShare) (j m : Nat) (h : j + m ≤ l.length) :
    (List.range m).map (fun o => l.getD (j + o) default) = (l.drop j).take m := by
  apply List.ext_getElem
  · simp only [List.length_map, List.length_range, List.length_take,
      List.length_drop]
    omega
  · intro i h1 h2
    simp only [List.length_map, List.length_range, List.length_take,
      List.length_drop] at h1 h2
    simp only [List.getElem_map, List.getElem_range, List.getElem_take,
      List.getElem_drop]
    exact List.getD_eq_getElem l default (by omega)

theorem kSubsets_mem_sublist {k : Nat} {l w : List SecretShare}
    (hw : w ∈ kSubsets k l) (hk : 1 ≤ k) : w.Sublist l := by
  unfold kSubsets at hw
  by_cases hkl : k = l.length
  · rw [if_pos hkl] at hw
    simp only [List.mem_singleton] at hw
    subst hw
    exact List.Sublist.refl w
  · rw [if_neg hkl] at hw
    simp only [List.mem_flatMap, List.mem_map] at hw
    obtain ⟨i, hi, j, hj, rfl⟩ := hw
    have hiLt : i < l.length := List.mem_range.1 hi
    have hjP := List.mem_takeWhile_imp
      (p := fun j => decide (j + k - 1 ≤ l.length)) hj
    have hjLe : j + k - 1 ≤ l.length := of_decide_eq_true hjP
    have hjB : j ∈ List.drop (i + 1) (List.range l.length) :=
      (List.takeWhile_sublist _).subset hj
    rw [drop_range] at hjB
    have hjGt : i + 1 ≤ j ∧ j < l.length := by
      obtain ⟨o2, ho2, rfl⟩ := List.mem_range'.1 hjB
      omega
    have hwin : (List.range (k - 1)).map (fun o => l.getD (j + o) default) =
        (l.drop j).take (k - 1) := map_getD_window l j (k - 1) (by omega)
    rw [hwin, List.getD_eq_getElem l default hiLt]
    have h1 : ((l.drop j).take (k - 1)).Sublist (l.drop (i + 1)) := by
      refine List.Sublist.trans (List.take_sublist _ _) ?_
      have : l.drop j = List.drop (j - i - 1) (List.drop (i + 1) l) := by
        rw [List.drop_drop, show i + 1 + (j - i - 1) = j from by omega]
      rw [this]
      exact List.drop_sublist _ _
    refine List.Sublist.trans ?_ (List.drop_sublist i l)
    rw [List.drop_eq_getElem_cons hiLt]
    exact List.Sublist.cons₂ _ h1

theorem kSubsets_nodup {k : Nat} {l : List SecretShare}
    (h2 : 2 ≤ k) (hnd : l.Nodup) : (kSubsets k l).Nodup := by
  unfold kSubsets
  by_cases hkl : k = l.length
  · rw [if_pos hkl]
    simp
  · rw [if_neg hkl]
    rw [List.nodup_flatMap]
    constructor
    · intro i hi
      have hiLt : i < l.length := List.mem_range.1 hi
      refine List.Nodup.map_on ?_ ?_
      · intro x hx y hy hEq
        have hxLt : x < l.length := by
          have hxB := (List.takeWhile_sublist _).subset hx
          rw [drop_range] at hxB
          obtain ⟨o2, _, rfl⟩ := List.mem_range'.1 hxB
          omega
        have hyLt : y < l.length := by
          have hyB := (List.takeWhile_sublist _).subset hy
          rw [drop_range] at hyB
          obtain ⟨o2, _, rfl⟩ := List.mem_range'.1 hyB
          omega
        injection hEq with h1 h2w
        rw [show k - 1 = (k - 2) + 1 from by omega,
          List.range_succ_eq_map, List.map_cons, List.map_cons] at h2w
        injection h2w with h3 _
        rw [List.getD_eq_getElem l default (by omega),
          List.getD_eq_getElem l default (by omega)] at h3
        have := (hnd.getElem_inj_iff).1 h3
        omega
      · refine (List.takeWhile_sublist _).nodup ?_
        rw [drop_range]
        exact List.nodup_range' _ _
    · rw [List.pairwise_iff_getElem]
      intro i j hi hj hij
      rw [List.length_range] at hi hj
      intro w hw1 hw2
      rw [List.getElem_range] at hw1 hw2
      simp only [List.mem_map] at hw1 hw2
      obtain ⟨x, _, rfl⟩ := hw1
      obtain ⟨y, _, hEq⟩ := hw2
      injection hEq with h1 _
      rw [List.getD_eq_getElem l default hj,
        List.getD_eq_getElem l default hi] at h1
      have := (hnd.getElem_inj_iff).1 h1
      omega

/-- C3 counterexample: on the four-element pool the size-3 enumeration
yields 3 subsets, not C(4,3) = 4. -/
theorem claim3_counterexample :
    (kSubsets 3 wPool4).length ≠ Nat.choose wPool4.length 3 := by
  decide

/-- C3 (amended): for 2 <= k <= m the enumeration yields exactly
(m-k+1)(m-k+2)/2 subsets (each one element plus a contiguous window, not
all C(m,k) combinations), every output has k elements and preserves the
original relative order (it is a sublist of the pool), and for a pool of
distinct shares the outputs are pairwise distinct; the k = 1 case is
excluded as the enumeration emits duplicates there (noted broken in the
test file). -/
theorem claim3_window_enumeration (k : Nat) (l : List SecretShare)
    (h2 : 2 ≤ k) (hkm : k ≤ l.length) :
    (kSubsets k l).length = (l.length - k + 1) * (l.length - k + 2) / 2 ∧
    (∀ w ∈ kSubsets k l, w.length = k ∧ w.Sublist l) ∧
    (l.Nodup → (kSubsets k l).Nodup) :=
  ⟨kSubsets_length k l h2 hkm,
   fun w hw => ⟨kSubsets_mem_length hw (by omega),
     kSubsets_mem_sublist hw (by omega)⟩,
   fun h => kSubsets_nodup h2 h⟩

/-! Witnesses: each abstract claim applied at a concrete, evaluable input. -/

theorem claim1_round_trip_witness :
    ∃ shares, Share sumCrypto headProjEngine wA23 wMsg wTag wRand = .ok shares ∧
      Recover sumCrypto headProjEngine shares = .ok wMsg shares :=
  claim1_round_trip sumCrypto headProjEngine wA23 wMsg wTag wRand
    (by decide) (by decide) (by decide)

theorem claim2_insufficient_pool_panics_witness :
    Recover sumCrypto headProjEngine [wPlain 0] =
      .goPanic "runtime error: slice bounds out of range [1:0]" :=
  claim2_insufficient_pool_panics sumCrypto headProjEngine (wPlain 0) [] []
    (by decide) (by decide)

theorem claim3_window_enumeration_witness :
    (kSubsets 3 wPool4).length =
      (wPool4.length - 3 + 1) * (wPool4.length - 3 + 2) / 2 ∧
    (∀ w ∈ kSubsets 3 wPool4, w.length = 3 ∧ w.Sublist wPool4) ∧
    (wPool4.Nodup → (kSubsets 3 wPool4).Nodup) :=
  claim3_window_enumeration 3 wPool4 (by decide) (by decide)

theorem claim4_base_split_seeded_with_L_witness :
    ∃ sh sh2,
      internalShare sumCrypto headProjEngine wA22 [5] [1, 2] [] = .ok sh ∧
      internalShare sumCrypto headProjEngine wA22 [5] [2, 1] [] = .ok sh2 ∧
      sh.map SecretShare.sec = sh2.map SecretShare.sec ∧
      sh.map SecretShare.id = sh2.map SecretShare.id := by
  have h := claim4_base_split_seeded_with_L sumCrypto headProjEngine wA22
    [5] [5] [1, 2] [2, 1] [] [] (by decide) (by decide) _ _
    (internalShare_ok _ _ _ _ _ _) (internalShare_ok _ _ _ _ _ _)
  exact ⟨_, _, internalShare_ok _ _ _ _ _ _, internalShare_ok _ _ _ _ _ _,
    h.1, h.2⟩

theorem claim5_ambiguity_witness :
    ∃ w ∈ wAmbCands.drop (4 + 1), isSubset w wAmbV = false ∧
      exAxRecover sumCrypto headProjEngine wAmbPool =
        .goError (ambiguousMsg w wAmbV) :=
  (claim5_ambiguity sumCrypto headProjEngine wAmbPool wAmbCands 4 [9] wAmbV
    (by decide) (by decide) (by decide) (by decide)).1 (by decide)

theorem claim6_integrity_gates_witness :
    axRecover sumCrypto headProjEngine (wTampC :: [wShares.getD 1 default]) =
      .err "checksum failed" :=
  (claim6_integrity_gates sumCrypto headProjEngine wTampC
    [wShares.getD 1 default]
    (computeJKL sumCrypto wA23 wMsg wRand wTag).2.1
    (xorKS (sumCrypto.ks (computeJKL sumCrypto wA23 wMsg wRand wTag).2.1 iv0)
      wTampC.pubC)
    (xorKS (sumCrypto.ks (computeJKL sumCrypto wA23 wMsg wRand wTag).2.1 iv1)
      wTampC.pubD)
    (by decide) (by decide)).1 (by decide)

theorem claim7_pool_validation_witness :
    Recover sumCrypto headProjEngine [] =
      .goError "plausible shares: no shares provided" ∧
    Recover sumCrypto headProjEngine [wPlain 0, wBadAs] =
      .goError "plausible shares: shares have inconsistent access structures" ∧
    Recover sumCrypto headProjEngine [wPlain 0, wBadTag] =
      .goError "plausible shares: shares have inconsistent tags" ∧
    Recover sumCrypto headProjEngine [wPlain 0, wPlain 0] =
      .goError "plausible shares: duplicate share ID found" := by
  have h := claim7_pool_validation sumCrypto headProjEngine
  exact ⟨h.1,
    h.2.1 (wPlain 0) [wBadAs] (by decide) (by decide) (by decide),
    h.2.2.1 (wPlain 0) [wBadTag] (by decide) (by decide) (by decide),
    h.2.2.2 (wPlain 0) [wPlain 0] (by decide) (by decide) (by decide)⟩

theorem claim8_largest_first_witness :
    (wCands3.head? = some [wPlain 0, wPlain 1, wPlain 2] ∧
      List.Pairwise (fun x y => y.length ≤ x.length) wCands3) ∧
    (∃ cands, computeKPlausibleShareSets wShares = .ok cands ∧
      firstExplanation sumCrypto headProjEngine cands 0 =
        .inr (0, wMsg, wShares)) := by
  constructor
  · have h := (claim8_largest_first sumCrypto headProjEngine).1 (wPlain 0)
      [wPlain 1, wPlain 2] wCands3 (by decide) (by decide)
    exact ⟨h.1 (by decide), h.2⟩
  · exact (claim8_largest_first sumCrypto headProjEngine).2 wA23 wMsg wTag
      wRand (by decide) (by decide) (by decide) wShares
      (internalShare_ok _ _ _ _ _ _)

theorem claim9_secret_is_key_length_witness :
    (wShares.getD 0 default).sec.length = 32 :=
  claim9_secret_is_key_length sumCrypto headProjEngine wA23 wMsg wRand wTag
    wShares (internalShare_ok _ _ _ _ _ _) _ (by decide)

theorem claim10_share_fields_witness :
    wShares.length = wA23.n ∧
    wShares.map SecretShare.id = List.range wA23.n ∧
    ((wShares.getD 0 default).pubJ.length = 64 ∧
      (wShares.getD 0 default).as = wA23 ∧
      (wShares.getD 0 default).tag = wTag) ∧
    ((wShares.getD 0 default).pubC = (wShares.getD 1 default).pubC ∧
      (wShares.getD 0 default).pubD = (wShares.getD 1 default).pubD ∧
      (wShares.getD 0 default).pubJ = (wShares.getD 1 default).pubJ ∧
      (wShares.getD 0 default).tag = (wShares.getD 1 default).tag) := by
  have h := claim10_share_fields sumCrypto headProjEngine wA23 wMsg wRand wTag
    wShares (internalShare_ok _ _ _ _ _ _)
  exact ⟨h.1, h.2.1, h.2.2.1 _ (by decide), h.2.2.2 _ (by decide) _ (by decide)⟩

end Adss
